import Mathlib

/-!
A shallow embedding of src/dstruct.py (vanderschaarlab/d-struct): the
NOTEARS dual-ascent control loop, the graph extraction / thresholding
routines, and the DStruct ensemble consensus loss.

Modelling conventions:
* Python floats are rationals.
* The convergence tracker (self.h for lit_NOTEARS, dsl.h for DStruct) is
  initialized to np.inf; we model it as an Option, with none standing for
  +infinity.
* Each opaque inner minimization (optimizer.step(closure)) is summarized by
  the acyclicity value h_func() it leaves on the model, so a dual-ascent
  step call receives a sequence hs : Nat -> Rat of such values, indexed by
  how many inner minimizations have run so far in this call (warm start:
  the index only advances).
* The while-loop is unfolded with an explicit fuel bound; exhausting the
  fuel is reported separately so no theorem confuses it with termination.
* numpy in-place boolean-mask assignment is modelled by a pure matrix
  update whose mask is computed from the current array, matching the
  sequential semantics of the source.
-/

/-- Variant selected by NOTEARS.init (src/src/dstruct.py lines 27-31):
NotearsMLP with dims = dim :: nonlinear_dims when sem_type is "mlp", else
NotearsSobolev dim 5.  The two dsl classes are external collaborators
(src.dsl); we record only which one is constructed, with its constructor
arguments. -/
inductive DSLVariant where
  | notearsMLP (dims : List ℕ)
  | notearsSobolev (dim k : ℕ)
deriving DecidableEq

/-- State set up by NOTEARS.init (src/src/dstruct.py lines 13-36). -/
structure NOTEARSModel where
  dim : ℕ
  notears : DSLVariant
  rho : ℚ
  alpha : ℚ
  lambda1 : ℚ
  lambda2 : ℚ
deriving DecidableEq

/-- NOTEARS.init (lines 13-36).  There is no sem_type validation: the
variant is chosen by a plain conditional expression, so any sem_type other
than "mlp" selects the Sobolev variant and construction always succeeds.
Python defaults: nonlinear_dims = [10, 10, 1], sem_type = "mlp",
rho = 1.0, alpha = 1.0, lambda1 = 0.0, lambda2 = 0.0. -/
def NOTEARS_init (dim : ℕ) (nonlinear_dims : List ℕ) (sem_type : String)
    (rho alpha lambda1 lambda2 : ℚ) : NOTEARSModel :=
  { dim := dim
    notears :=
      if sem_type = "mlp" then DSLVariant.notearsMLP (dim :: nonlinear_dims)
      else DSLVariant.notearsSobolev dim 5
    rho := rho
    alpha := alpha
    lambda1 := lambda1
    lambda2 := lambda2 }

/-- The mutable state read and written by a dual-ascent step: the model's
rho and alpha together with the convergence tracker (self.h in lit_NOTEARS,
dsl.h in DStruct), whose initial value is np.inf (modelled as none). -/
structure DAState where
  rho : ℚ
  alpha : ℚ
  hPrev : Option ℚ
deriving DecidableEq

/-- The test h_new > 0.25 * h_prev from lines 114 and 262; when h_prev is
+infinity (none) the comparison is false for every finite h_new. -/
def quarterExceeds (hNew : ℚ) : Option ℚ → Bool
  | none => false
  | some hPrev => decide ((1 / 4 : ℚ) * hPrev < hNew)

/-- Outcome of one dual-ascent step call.  typeError is Python raising on
alpha += rho * None (h_new never assigned); fuelOut means the while-loop was
still running when the fuel bound was reached. -/
inductive StepResult where
  | ok (alpha rho hNew : ℚ)
  | typeError
  | fuelOut
deriving DecidableEq

/-- The while-loop of the dual-ascent step (lines 102-117 and 233-265):
while rho < rho_max, run one inner minimization (whose resulting acyclicity
value is hs k), set h_new to it, and either escalate rho by the factor 10
and continue, or break.  Returns the final rho, the final h_new (an Option:
none when never assigned), and whether the loop exited on its own (false
means the fuel ran out mid-loop). -/
def daLoop (hs : ℕ → ℚ) (rhoMax : ℚ) (hPrev : Option ℚ) :
    ℕ → ℕ → ℚ → Option ℚ → ℚ × Option ℚ × Bool
  | 0, _, rho, hNew => (rho, hNew, false)
  | fuel + 1, k, rho, hNew =>
    if rho < rhoMax then
      if quarterExceeds (hs k) hPrev then
        daLoop hs rhoMax hPrev fuel (k + 1) (rho * 10) (some (hs k))
      else
        (rho, some (hs k), true)
    else
      (rho, hNew, true)

/-- lit_NOTEARS dual-ascent step (lines 99-119) and the structurally
identical DStruct dual-ascent step (lines 228-269): h_new = None; the
while-loop above; then alpha += rho * h_new — a TypeError when h_new is
still None — and the triple (alpha, rho, h_new) is returned. -/
def dual_ascent_step (hs : ℕ → ℚ) (rhoMax : ℚ) (fuel : ℕ) (st : DAState) :
    StepResult × DAState :=
  match daLoop hs rhoMax st.hPrev fuel 0 st.rho none with
  | (rho, _, false) => (StepResult.fuelOut, { st with rho := rho })
  | (rho, none, true) => (StepResult.typeError, { st with rho := rho })
  | (rho, some h, true) =>
    (StepResult.ok (st.alpha + rho * h) rho h,
      { st with rho := rho, alpha := st.alpha + rho * h })

/-- training_step (lines 121-131, and per-model at lines 201-209): runs the
dual-ascent step and stores the returned h into the convergence tracker
(self.h = h, resp. dsl.h = h); an exception from the step propagates before
the tracker update. -/
def training_step (hs : ℕ → ℚ) (rhoMax : ℚ) (fuel : ℕ) (st : DAState) :
    StepResult × DAState :=
  match dual_ascent_step hs rhoMax fuel st with
  | (StepResult.ok a r h, st') => (StepResult.ok a r h, { st' with hPrev := some h })
  | other => other

/-- Successive training steps on one model: each call brings its own
sequence of inner-minimization results, and an exception aborts the run
with the state mutated so far. -/
def run_training_steps (rhoMax : ℚ) (fuel : ℕ) : List (ℕ → ℚ) → DAState → DAState
  | [], st => st
  | hs :: rest, st =>
    match training_step hs rhoMax fuel st with
    | (StepResult.ok _ _ _, st') => run_training_steps rhoMax fuel rest st'
    | (_, st') => st'

/-- dim x dim rational matrices standing for the numpy / torch arrays. -/
abbrev Mat (n : ℕ) := Fin n → Fin n → ℚ

/-- numpy boolean-mask assignment M[p(M)] = v: the mask is computed from
the current array and every selected entry is overwritten with v. -/
def maskAssign {n : ℕ} (M : Mat n) (p : ℚ → Prop) [DecidablePred p] (v : ℚ) : Mat n :=
  fun i j => if p (M i j) then v else M i j

/-- lit_NOTEARS.A with grad=False (lines 140-145), applied to the detached
weighted adjacency B_est = fc1_to_adj() of the external dsl:
B_est[np.abs(B_est) < w_threshold] = 0, then B_est[B_est > 0] = 1. -/
def lit_NOTEARS_A {n : ℕ} (B_est : Mat n) (w_threshold : ℚ) : Mat n :=
  maskAssign (maskAssign B_est (fun w => |w| < w_threshold) 0) (fun w => 0 < w) 1

/-- np.array(As).mean(axis=0), resp. torch.stack(As).mean(dim=0): the
elementwise mean of the K models' adjacencies. -/
def meanAdj {n : ℕ} (As : List (Mat n)) : Mat n :=
  fun i j => (As.map (fun A => A i j)).sum / (As.length : ℚ)

/-- DStruct.forward with grad=False (lines 282-290): mean adjacency, then
the sequential in-place assignments _As[np.abs(_As) > threshold] = 1 and
_As[np.abs(_As) <= threshold] = 0, each mask recomputed from the updated
array. -/
def DStruct_forward_noGrad {n : ℕ} (As : List (Mat n)) (threshold : ℚ) :
    List (Mat n) × Mat n :=
  (As,
    maskAssign (maskAssign (meanAdj As) (fun w => threshold < |w|) 1)
      (fun w => |w| ≤ threshold) 0)

/-- DStruct.A (lines 307-309): the second component of forward with
grad=False. -/
def DStruct_A {n : ℕ} (As : List (Mat n)) (threshold : ℚ) : Mat n :=
  (DStruct_forward_noGrad As threshold).2

/-- torch.nn.MSELoss() with its default mean reduction over all n*n
entries. -/
def mseLoss {n : ℕ} (X Y : Mat n) : ℚ :=
  (∑ i, ∑ j, (X i j - Y i j) ^ 2) / ((n : ℚ) * n)

/-- DStruct loss (lines 292-305): As are the gradient-carrying adjacencies,
A_comp their stacked mean with the diagonal zeroed in place; mask is the
all-ones matrix with zero diagonal; the loss sums mse(A_est * mask, A_comp)
over the K models.  (A_comp.detach() on line 298 discards its result, so it
does not change the computed value.) -/
def DStruct_loss {n : ℕ} (As : List (Mat n)) : ℚ :=
  (As.map (fun A_est =>
    mseLoss (fun i j => A_est i j * (if i = j then 0 else 1))
      (fun i j => if i = j then 0 else meanAdj As i j))).sum

/-- Fields stored by DStruct.init (lines 155-189); p is the external
partition strategy, kept opaque. -/
structure DStructModel (γ : Type) where
  h_tol : ℚ
  rho_max : ℚ
  w_threshold : ℚ
  lr : ℚ
  K : ℕ
  dim : ℕ
  lmbda : ℚ
  s : ℕ
  dsl_list : List NOTEARSModel
  p : γ

/-- DStruct.init (lines 155-189).  The dsl and dsl_config parameters are
accepted but never read: dsl_list is built as NOTEARS(dim=self.dim) for
each of the K members (line 182), i.e. with every NOTEARS default. -/
def DStruct_init {α β γ : Type} (dim : ℕ) ( dsl : α) (dsl_config : β) (p : γ)
    (K : ℕ) (lr : ℚ) (lmbda : ℚ) (n : ℕ) (s : ℕ) (dag_type : String)
    (h_tol rho_max w_threshold : ℚ) : DStructModel γ :=
  { h_tol := h_tol
    rho_max := rho_max
    w_threshold := w_threshold
    lr := lr
    K := K
    dim := dim
    lmbda := lmbda
    s := s
    dsl_list := (List.range K).map (fun _ => NOTEARS_init dim [10, 10, 1] "mlp" 1 1 0 0)
    p := p }

/-! ## Claim C2 (code_bug) and C3 (corrected) -/

/-- C2: the claim says h_new is assigned before any use, in particular
when rho is already at rho_max on entry.  The code instead initializes
h_new to None and, when the loop body never runs (rho >= rho_max at
entry, here rho = rho_max = 1), evaluates alpha += rho * None, raising a
TypeError.  This theorem evaluates the embedded step at that failing
input. -/
theorem dual_ascent_step_typeError_at_rho_max :
    dual_ascent_step (fun _ => 0) 1 5 ⟨1, 1, none⟩ =
      (StepResult.typeError, ⟨1, 1, none⟩) := by
  rfl

/-- C3 counterexample: constructing with sem_type = "unknown" does not
fail; it silently builds the Sobolev variant with all remaining fields set
normally, refuting "raises a configuration error at construction time". -/
theorem NOTEARS_init_unknown_sem_type_constructs :
    NOTEARS_init 3 [10, 10, 1] "unknown" 1 1 0 0 =
      { dim := 3, notears := DSLVariant.notearsSobolev 3 5,
        rho := 1, alpha := 1, lambda1 := 0, lambda2 := 0 } := by
  rfl

/-- C3 amended: an invalid sem_type (anything other than "mlp") raises no
error; construction succeeds and selects the Sobolev variant. -/
theorem NOTEARS_init_invalid_sem_type_selects_sobolev (dim : ℕ) (nd : List ℕ)
    (sem_type : String) (rho alpha lambda1 lambda2 : ℚ)
    (h : ¬ sem_type = "mlp") :
    (NOTEARS_init dim nd sem_type rho alpha lambda1 lambda2).notears =
      DSLVariant.notearsSobolev dim 5 := by
  simp [NOTEARS_init, h]

/-- Witness for the amended C3 at sem_type = "sobolev". -/
theorem NOTEARS_init_invalid_sem_type_selects_sobolev_witness :
    (NOTEARS_init 2 [5] "sobolev" 1 1 0 0).notears =
      DSLVariant.notearsSobolev 2 5 :=
  NOTEARS_init_invalid_sem_type_selects_sobolev 2 [5] "sobolev" 1 1 0 0 (by decide)

/-! ## Claim C6 -/

/-- C6: lit_NOTEARS.A with grad=False first zeroes every entry whose
absolute value is below the threshold, then sets every remaining strictly
positive entry to exactly 1, leaving surviving negative entries unchanged:
entrywise it equals (if abs below threshold then 0 else if positive then 1
else the original (non-positive) value), so it does not binarize by
magnitude on both signs. -/
theorem lit_NOTEARS_A_characterization {n : ℕ} (B_est : Mat n)
    (w_threshold : ℚ) (i j : Fin n) :
    lit_NOTEARS_A B_est w_threshold i j =
      if |B_est i j| < w_threshold then 0
      else if 0 < B_est i j then 1
      else B_est i j := by
  unfold lit_NOTEARS_A maskAssign
  by_cases h1 : |B_est i j| < w_threshold <;> simp [h1]

/-! ## Claims C7 (corrected) and C10 -/

/-- C7 counterexample: at threshold 1 with a single model whose adjacency
is constantly 2, the mean entry has absolute value 2 > 1, so the claimed
symmetric binarization would give 1, but DStruct.A returns 0 (the entry is
set to 1 and then re-zeroed by the second in-place assignment). -/
theorem DStruct_A_binarize_fails_at_threshold_one :
    DStruct_A [fun _ _ => (2 : ℚ)] 1 (0 : Fin 1) (0 : Fin 1) = 0 ∧
      (1 : ℚ) < |meanAdj [fun _ _ => (2 : ℚ)] (0 : Fin 1) (0 : Fin 1)| := by
  constructor
  · norm_num [DStruct_A, DStruct_forward_noGrad, maskAssign, meanAdj]
  · norm_num [meanAdj]

/-- C7 amended: for every threshold strictly below 1, DStruct.forward with
grad=False (hence DStruct.A) binarizes the mean adjacency symmetrically:
an entry becomes 1 when the absolute value of the mean exceeds the
threshold and 0 otherwise.  (For thresholds at or above 1 the second
in-place assignment re-zeroes the just-set ones; see C10.) -/
theorem DStruct_A_symmetric_binarize_of_threshold_lt_one {n : ℕ}
    (As : List (Mat n)) (threshold : ℚ) (ht : threshold < 1) (i j : Fin n) :
    DStruct_A As threshold i j =
      if threshold < |meanAdj As i j| then 1 else 0 := by
  unfold DStruct_A DStruct_forward_noGrad maskAssign
  by_cases h1 : threshold < |meanAdj As i j|
  · simp [h1, abs_one, not_le.mpr ht]
  · simp [h1, not_lt.mp h1]

/-- Witness for the amended C7 at threshold 0. -/
theorem DStruct_A_symmetric_binarize_of_threshold_lt_one_witness :
    DStruct_A [fun _ _ => (2 : ℚ)] 0 (0 : Fin 1) (0 : Fin 1) = 1 := by
  have h := DStruct_A_symmetric_binarize_of_threshold_lt_one
    [fun _ _ => (2 : ℚ)] 0 (by norm_num) (0 : Fin 1) (0 : Fin 1)
  rw [h]
  norm_num [meanAdj]

/-- C10: for every threshold at least 1, DStruct.A returns the all-zero
matrix regardless of the models' adjacencies: entries with mean absolute
value above the threshold are first set to 1 in place, and the subsequent
assignment zeroes every entry whose new absolute value is at most the
threshold, which re-zeroes those just-set ones. -/
theorem DStruct_A_all_zero_of_one_le_threshold {n : ℕ} (As : List (Mat n))
    (threshold : ℚ) (ht : 1 ≤ threshold) (i j : Fin n) :
    DStruct_A As threshold i j = 0 := by
  unfold DStruct_A DStruct_forward_noGrad maskAssign
  by_cases h1 : threshold < |meanAdj As i j|
  · simp [h1, abs_one, ht]
  · simp [h1, not_lt.mp h1]

/-- Witness for C10 at threshold 1. -/
theorem DStruct_A_all_zero_of_one_le_threshold_witness :
    DStruct_A [fun _ _ => (2 : ℚ)] 1 (0 : Fin 1) (0 : Fin 1) = 0 :=
  DStruct_A_all_zero_of_one_le_threshold [fun _ _ => (2 : ℚ)] 1 le_rfl 0 0

/-! ## Claim C9 -/

/-- C9: DStruct.init ignores its dsl and dsl_config parameters — the
constructed state is identical for any two choices of those arguments —
and every one of the K members of dsl_list is NOTEARS(dim) with the
default hyperparameters: the MLP variant with dims [dim, 10, 10, 1],
rho = 1, alpha = 1, lambda1 = lambda2 = 0. -/
theorem DStruct_init_ignores_dsl_and_config {α β γ : Type} (dA : α) (cA : β)
    (dB : α) (cB : β) (p : γ) (dim K : ℕ) (lr lmbda : ℚ) (n s : ℕ)
    (dag_type : String) (h_tol rho_max w_threshold : ℚ) :
    DStruct_init dim dA cA p K lr lmbda n s dag_type h_tol rho_max w_threshold
        = DStruct_init dim dB cB p K lr lmbda n s dag_type h_tol rho_max w_threshold
      ∧ ∀ m ∈ (DStruct_init dim dA cA p K lr lmbda n s dag_type h_tol rho_max
          w_threshold).dsl_list,
          m.notears = DSLVariant.notearsMLP [dim, 10, 10, 1] ∧ m.rho = 1
            ∧ m.alpha = 1 ∧ m.lambda1 = 0 ∧ m.lambda2 = 0 := by
  refine ⟨rfl, ?_⟩
  intro m hm
  simp only [DStruct_init, List.mem_map] at hm
  obtain ⟨i, _, rfl⟩ := hm
  refine ⟨?_, rfl, rfl, rfl, rfl⟩
  simp [NOTEARS_init]

/-- Witness for C9 with concrete (and distinct) dsl / dsl_config values. -/
theorem DStruct_init_ignores_dsl_and_config_witness :
    (NOTEARS_init 3 [10, 10, 1] "mlp" 1 1 0 0).rho = 1 := by
  have h := DStruct_init_ignores_dsl_and_config (7 : ℕ) (8 : ℕ) (9 : ℕ)
    (10 : ℕ) (0 : ℕ) 3 1 (1 : ℚ) 2 200 9 ("ER") 1 1 1
  exact (h.2 (NOTEARS_init 3 [10, 10, 1] "mlp" 1 1 0 0)
    (by simp [DStruct_init])).2.1

/-! ## Loop lemmas for the dual-ascent step -/

/-- The loop only changes rho by multiplying it with 10, once per
escalation. -/
theorem daLoop_rho_pow (hs : ℕ → ℚ) (rhoMax : ℚ) (hPrev : Option ℚ) :
    ∀ (fuel k : ℕ) (rho : ℚ) (hNew : Option ℚ),
      ∃ e : ℕ, (daLoop hs rhoMax hPrev fuel k rho hNew).1 = rho * 10 ^ e := by
  intro fuel
  induction fuel with
  | zero => intro k rho hNew; exact ⟨0, by simp [daLoop]⟩
  | succ fuel ih =>
    intro k rho hNew
    by_cases h1 : rho < rhoMax
    · by_cases h2 : quarterExceeds (hs k) hPrev
      · obtain ⟨e, he⟩ := ih (k + 1) (rho * 10) (some (hs k))
        refine ⟨e + 1, ?_⟩
        simp only [daLoop, if_pos h1, if_pos h2, he]
        ring
      · exact ⟨0, by simp [daLoop, h1, h2]⟩
    · exact ⟨0, by simp [daLoop, h1]⟩

/-- rho is only escalated after the check rho < rho_max, so a single loop
never pushes rho beyond 10 * rho_max once it is at most that bound. -/
theorem daLoop_ceiling (hs : ℕ → ℚ) (rhoMax : ℚ) (hPrev : Option ℚ) :
    ∀ (fuel k : ℕ) (rho : ℚ) (hNew : Option ℚ), rho ≤ 10 * rhoMax →
      (daLoop hs rhoMax hPrev fuel k rho hNew).1 ≤ 10 * rhoMax := by
  intro fuel
  induction fuel with
  | zero => intro k rho hNew h; simpa [daLoop] using h
  | succ fuel ih =>
    intro k rho hNew h
    by_cases h1 : rho < rhoMax
    · by_cases h2 : quarterExceeds (hs k) hPrev
      · have h3 : rho * 10 ≤ 10 * rhoMax := by linarith
        simpa [daLoop, h1, h2] using ih (k + 1) (rho * 10) (some (hs k)) h3
      · simpa [daLoop, h1, h2] using h
    · simpa [daLoop, h1] using h

/-- The final h_new is either still unassigned or one of the values the
inner minimizations produced. -/
theorem daLoop_hNew_shape (hs : ℕ → ℚ) (rhoMax : ℚ) (hPrev : Option ℚ) :
    ∀ (fuel k : ℕ) (rho : ℚ) (hNew : Option ℚ),
      (hNew = none ∨ ∃ j, hNew = some (hs j)) →
      ((daLoop hs rhoMax hPrev fuel k rho hNew).2.1 = none
        ∨ ∃ j, (daLoop hs rhoMax hPrev fuel k rho hNew).2.1 = some (hs j)) := by
  intro fuel
  induction fuel with
  | zero => intro k rho hNew h; simpa [daLoop] using h
  | succ fuel ih =>
    intro k rho hNew h
    by_cases h1 : rho < rhoMax
    · by_cases h2 : quarterExceeds (hs k) hPrev
      · simpa [daLoop, h1, h2] using ih (k + 1) (rho * 10) (some (hs k)) (Or.inr ⟨k, rfl⟩)
      · simp [daLoop, h1, h2]
    · simpa [daLoop, h1] using h

/-- The step leaves exactly the loop's final rho in the state, whatever the
outcome. -/
theorem dual_ascent_step_rho (hs : ℕ → ℚ) (rhoMax : ℚ) (fuel : ℕ) (st : DAState) :
    (dual_ascent_step hs rhoMax fuel st).2.rho
      = (daLoop hs rhoMax st.hPrev fuel 0 st.rho none).1 := by
  unfold dual_ascent_step
  rcases hr : daLoop hs rhoMax st.hPrev fuel 0 st.rho none with ⟨rho, hNew, done⟩
  cases hNew <;> cases done <;> rfl

/-- The step never changes hPrev (the caller updates the tracker). -/
theorem dual_ascent_step_hPrev (hs : ℕ → ℚ) (rhoMax : ℚ) (fuel : ℕ) (st : DAState) :
    (dual_ascent_step hs rhoMax fuel st).2.hPrev = st.hPrev := by
  unfold dual_ascent_step
  rcases hr : daLoop hs rhoMax st.hPrev fuel 0 st.rho none with ⟨rho, hNew, done⟩
  cases hNew <;> cases done <;> rfl

/-- alpha only changes by adding rho * h_new, with h_new one of the
produced acyclicity values; with nonnegative rho and h values it cannot
decrease. -/
theorem dual_ascent_step_alpha_mono (hs : ℕ → ℚ) (rhoMax : ℚ) (fuel : ℕ)
    (st : DAState) (h0 : 0 ≤ st.rho) (hh : ∀ k, 0 ≤ hs k) :
    st.alpha ≤ (dual_ascent_step hs rhoMax fuel st).2.alpha := by
  have hshape := daLoop_hNew_shape hs rhoMax st.hPrev fuel 0 st.rho none (Or.inl rfl)
  have hpow := daLoop_rho_pow hs rhoMax st.hPrev fuel 0 st.rho none
  obtain ⟨e, he⟩ := hpow
  unfold dual_ascent_step
  rcases hr : daLoop hs rhoMax st.hPrev fuel 0 st.rho none with ⟨rho, hNew, done⟩
  rw [hr] at he hshape
  have he' : rho = st.rho * 10 ^ e := he
  have hshape' : hNew = none ∨ ∃ j, hNew = some (hs j) := hshape
  have hrho0 : 0 ≤ rho := by rw [he']; positivity
  cases hNew with
  | none => cases done <;> exact le_rfl
  | some h =>
    cases done with
    | false => exact le_rfl
    | true =>
      rcases hshape' with h' | ⟨j, hj⟩
      · exact absurd h' (by simp)
      · rw [Option.some_inj] at hj
        subst hj
        have hmul := mul_nonneg hrho0 (hh j)
        show st.alpha ≤ st.alpha + rho * hs j
        linarith

/-- training_step changes rho and alpha exactly as the dual-ascent step
does. -/
theorem training_step_rho_alpha (hs : ℕ → ℚ) (rhoMax : ℚ) (fuel : ℕ) (st : DAState) :
    (training_step hs rhoMax fuel st).2.rho = (dual_ascent_step hs rhoMax fuel st).2.rho
      ∧ (training_step hs rhoMax fuel st).2.alpha
        = (dual_ascent_step hs rhoMax fuel st).2.alpha := by
  unfold training_step
  rcases hr : dual_ascent_step hs rhoMax fuel st with ⟨res, st'⟩
  cases res <;> exact ⟨rfl, rfl⟩

/-- Per training step, rho is multiplied by 10 once per escalation. -/
theorem training_step_rho_pow (hs : ℕ → ℚ) (rhoMax : ℚ) (fuel : ℕ) (st : DAState) :
    ∃ e : ℕ, (training_step hs rhoMax fuel st).2.rho = st.rho * 10 ^ e := by
  obtain ⟨e, he⟩ := daLoop_rho_pow hs rhoMax st.hPrev fuel 0 st.rho none
  exact ⟨e, by rw [(training_step_rho_alpha hs rhoMax fuel st).1,
    dual_ascent_step_rho, he]⟩

/-- Across any run of training steps, the final rho is the initial rho
times a power of 10. -/
theorem run_training_steps_rho_pow (rhoMax : ℚ) (fuel : ℕ) :
    ∀ (L : List (ℕ → ℚ)) (st : DAState),
      ∃ e : ℕ, (run_training_steps rhoMax fuel L st).rho = st.rho * 10 ^ e := by
  intro L
  induction L with
  | nil => intro st; exact ⟨0, by simp [run_training_steps]⟩
  | cons hs rest ih =>
    intro st
    obtain ⟨a, ha⟩ := training_step_rho_pow hs rhoMax fuel st
    unfold run_training_steps
    rcases hr : training_step hs rhoMax fuel st with ⟨res, st'⟩
    rw [hr] at ha
    have ha' : st'.rho = st.rho * 10 ^ a := ha
    cases res with
    | ok alpha rho hNew =>
      obtain ⟨b, hb⟩ := ih st'
      refine ⟨a + b, ?_⟩
      show (run_training_steps rhoMax fuel rest st').rho = st.rho * 10 ^ (a + b)
      rw [hb, ha']
      ring
    | typeError => exact ⟨a, ha'⟩
    | fuelOut => exact ⟨a, ha'⟩

/-- Across any run of training steps, alpha never decreases, as long as
every inner minimization reports a nonnegative acyclicity value and rho
starts nonnegative. -/
theorem run_training_steps_alpha_mono (rhoMax : ℚ) (fuel : ℕ) :
    ∀ (L : List (ℕ → ℚ)) (st : DAState), 0 ≤ st.rho →
      (∀ f ∈ L, ∀ k, 0 ≤ f k) →
      st.alpha ≤ (run_training_steps rhoMax fuel L st).alpha := by
  intro L
  induction L with
  | nil => intro st _ _; exact le_rfl
  | cons hs rest ih =>
    intro st h0 hh
    have hstep : st.alpha ≤ (training_step hs rhoMax fuel st).2.alpha := by
      rw [(training_step_rho_alpha hs rhoMax fuel st).2]
      exact dual_ascent_step_alpha_mono hs rhoMax fuel st h0
        (hh hs (List.mem_cons_self hs rest))
    obtain ⟨a, ha⟩ := training_step_rho_pow hs rhoMax fuel st
    unfold run_training_steps
    rcases hr : training_step hs rhoMax fuel st with ⟨res, st'⟩
    rw [hr] at hstep ha
    have hstep' : st.alpha ≤ st'.alpha := hstep
    have ha' : st'.rho = st.rho * 10 ^ a := ha
    have h0' : 0 ≤ st'.rho := by rw [ha']; positivity
    cases res with
    | ok alpha rho hNew =>
      have := ih st' h0' (fun f hf => hh f (List.mem_cons_of_mem hs hf))
      show st.alpha ≤ (run_training_steps rhoMax fuel rest st').alpha
      linarith
    | typeError => exact hstep'
    | fuelOut => exact hstep'

/-! ## Claim C4 -/

/-- C4: across any number of training steps, the model's rho equals the
initial rho times 10 to the number of escalations performed; when the
initial rho is nonnegative, rho is non-decreasing over the run; and a
single dual-ascent step never leaves rho exceeding rho_max * 10 (the loop
checks rho < rho_max before each escalation, so at most one overshoot past
the ceiling is possible). -/
theorem rho_escalation_invariants (rhoMax : ℚ) (fuel : ℕ) (L : List (ℕ → ℚ))
    (st : DAState) :
    (∃ e : ℕ, (run_training_steps rhoMax fuel L st).rho = st.rho * 10 ^ e)
      ∧ (0 ≤ st.rho → st.rho ≤ (run_training_steps rhoMax fuel L st).rho)
      ∧ ∀ hs : ℕ → ℚ, st.rho ≤ 10 * rhoMax →
          (dual_ascent_step hs rhoMax fuel st).2.rho ≤ 10 * rhoMax := by
  refine ⟨run_training_steps_rho_pow rhoMax fuel L st, ?_, ?_⟩
  · intro h0
    obtain ⟨e, he⟩ := run_training_steps_rho_pow rhoMax fuel L st
    rw [he]
    exact le_mul_of_one_le_right h0 (one_le_pow₀ (by norm_num))
  · intro hs hle
    rw [dual_ascent_step_rho]
    exact daLoop_ceiling hs rhoMax st.hPrev fuel 0 st.rho none hle

/-- Witness for C4 at a concrete state. -/
theorem rho_escalation_invariants_witness :
    (1 : ℚ) ≤ (run_training_steps 1 3 [] ⟨1, 1, none⟩).rho
      ∧ (dual_ascent_step (fun _ => 0) 1 3 ⟨1, 1, none⟩).2.rho ≤ 10 * 1 := by
  have h := rho_escalation_invariants 1 3 [] (⟨1, 1, none⟩ : DAState)
  exact ⟨h.2.1 zero_le_one, h.2.2 (fun _ => 0) (by norm_num)⟩

/-! ## Claim C5 -/

/-- C5: across successive training-step calls on one model, alpha is
non-decreasing whenever every acyclicity value computed by the inner
minimizations is nonnegative, given a positive starting rho (as holds for
the initial rho = 1.0, since rho is only ever multiplied by 10). -/
theorem alpha_monotone_across_steps (rhoMax : ℚ) (fuel : ℕ) (L : List (ℕ → ℚ))
    (st : DAState) (h0 : 0 < st.rho) (hh : ∀ f ∈ L, ∀ k, 0 ≤ f k) :
    st.alpha ≤ (run_training_steps rhoMax fuel L st).alpha :=
  run_training_steps_alpha_mono rhoMax fuel L st (le_of_lt h0) hh

/-- Witness for C5 at a concrete run. -/
theorem alpha_monotone_across_steps_witness :
    (1 : ℚ) ≤ (run_training_steps 10 3 [fun _ => 0] ⟨1, 1, none⟩).alpha := by
  have h := alpha_monotone_across_steps 10 3 [fun _ => (0 : ℚ)]
    (⟨1, 1, none⟩ : DAState) zero_lt_one ?hh
  · exact h
  case hh =>
    intro f hf k
    rw [List.mem_singleton] at hf
    subst hf
    exact le_rfl

/-- Closed-form characterization of the escalation loop: if the first e
iterations all escalate (rho below the ceiling and the quarter test
exceeded) then the loop either breaks at iteration e with h_new the e-th
inner result, or exits on the rho check at iteration e keeping the
previous h_new. -/
theorem daLoop_char (hs : ℕ → ℚ) (rhoMax : ℚ) (hPrev : Option ℚ) :
    ∀ (e fuel k0 : ℕ) (rho : ℚ) (hNew : Option ℚ), e < fuel →
      (∀ k, k < e → rho * 10 ^ k < rhoMax
        ∧ quarterExceeds (hs (k0 + k)) hPrev = true) →
      ((rho * 10 ^ e < rhoMax → quarterExceeds (hs (k0 + e)) hPrev = false →
          daLoop hs rhoMax hPrev fuel k0 rho hNew
            = (rho * 10 ^ e, some (hs (k0 + e)), true))
        ∧ (¬ rho * 10 ^ e < rhoMax →
          daLoop hs rhoMax hPrev fuel k0 rho hNew
            = (rho * 10 ^ e,
                if e = 0 then hNew else some (hs (k0 + e - 1)), true))) := by
  intro e
  induction e with
  | zero =>
    intro fuel k0 rho hNew hfuel _
    obtain ⟨fuel, rfl⟩ : ∃ f, fuel = f + 1 := ⟨fuel - 1, by omega⟩
    constructor
    · intro hlt hq
      rw [pow_zero, mul_one] at hlt
      simp only [Nat.add_zero] at hq
      simp [daLoop, hlt, hq]
    · intro hge
      rw [pow_zero, mul_one] at hge
      simp [daLoop, hge]
  | succ e ih =>
    intro fuel k0 rho hNew hfuel hesc
    obtain ⟨fuel, rfl⟩ : ∃ f, fuel = f + 1 := ⟨fuel - 1, by omega⟩
    have h0 := hesc 0 (Nat.succ_pos e)
    rw [pow_zero, mul_one] at h0
    have h0q : quarterExceeds (hs k0) hPrev = true := by
      have := h0.2
      simpa using this
    have hstep : daLoop hs rhoMax hPrev (fuel + 1) k0 rho hNew
        = daLoop hs rhoMax hPrev fuel (k0 + 1) (rho * 10) (some (hs k0)) := by
      simp [daLoop, h0.1, h0q]
    have hesc' : ∀ k, k < e → (rho * 10) * 10 ^ k < rhoMax
        ∧ quarterExceeds (hs ((k0 + 1) + k)) hPrev = true := by
      intro k hk
      have h := hesc (k + 1) (by omega)
      refine ⟨?_, ?_⟩
      · have hp : rho * 10 ^ (k + 1) = rho * 10 * 10 ^ k := by ring
        rw [← hp]
        exact h.1
      · have hi : k0 + (k + 1) = (k0 + 1) + k := by omega
        rw [← hi]
        exact h.2
    have hIH := ih fuel (k0 + 1) (rho * 10) (some (hs k0)) (by omega) hesc'
    have hpow : rho * 10 * 10 ^ e = rho * 10 ^ (e + 1) := by ring
    have hidx : (k0 + 1) + e = k0 + (e + 1) := by omega
    constructor
    · intro hlt hq
      rw [hstep, hIH.1 (by rw [hpow]; exact hlt) (by rw [hidx]; exact hq),
        hpow, hidx]
    · intro hge
      rw [hstep, hIH.2 (by rw [hpow]; exact hge), hpow]
      have h1 : (if e = 0 then some (hs k0) else some (hs (k0 + 1 + e - 1)))
          = some (hs (k0 + e)) := by
        rcases Nat.eq_zero_or_pos e with he | he
        · subst he
          simp
        · rw [if_neg (by omega)]
          congr 2
          omega
      have h2 : (if e + 1 = 0 then hNew else some (hs (k0 + (e + 1) - 1)))
          = some (hs (k0 + e)) := by
        rw [if_neg (by omega)]
        congr 2
      rw [h1, h2]

/-! ## Claim C1 -/

/-- C1: a dual-ascent step repeats the loop body while rho < rho_max,
recomputing h_new after each inner minimization (warm start: each
iteration consumes the next inner-minimization result); it escalates rho
by the fixed factor 10 exactly when h_new > 0.25 * h_prev, otherwise
breaks; after the loop it increments alpha by rho * h_new and returns the
triple (alpha, rho, h_new).  Here e counts the escalations: the first
conjunct is the break exit at iteration e, the second the rho_max exit
after e > 0 escalations (with h_new from the last iteration). -/
theorem dual_ascent_step_escalate_then_update (hs : ℕ → ℚ) (rhoMax : ℚ)
    (st : DAState) (e fuel : ℕ) (hfuel : e < fuel)
    (hesc : ∀ k, k < e → st.rho * 10 ^ k < rhoMax
      ∧ quarterExceeds (hs k) st.hPrev = true) :
    (st.rho * 10 ^ e < rhoMax → quarterExceeds (hs e) st.hPrev = false →
        dual_ascent_step hs rhoMax fuel st =
          (StepResult.ok (st.alpha + st.rho * 10 ^ e * hs e) (st.rho * 10 ^ e)
              (hs e),
            ⟨st.rho * 10 ^ e, st.alpha + st.rho * 10 ^ e * hs e, st.hPrev⟩))
      ∧ (¬ st.rho * 10 ^ e < rhoMax → 0 < e →
        dual_ascent_step hs rhoMax fuel st =
          (StepResult.ok (st.alpha + st.rho * 10 ^ e * hs (e - 1))
              (st.rho * 10 ^ e) (hs (e - 1)),
            ⟨st.rho * 10 ^ e, st.alpha + st.rho * 10 ^ e * hs (e - 1),
              st.hPrev⟩)) := by
  have hspec := daLoop_char hs rhoMax st.hPrev e fuel 0 st.rho none hfuel
    (by intro k hk; simpa using hesc k hk)
  constructor
  · intro hlt hq
    have hd := hspec.1 hlt (by simpa using hq)
    rw [Nat.zero_add] at hd
    unfold dual_ascent_step
    rw [hd]
  · intro hge he
    have hd := hspec.2 hge
    rw [if_neg (by omega), Nat.zero_add] at hd
    unfold dual_ascent_step
    rw [hd]

/-- Witness for C1: one escalation (h exceeds a quarter of h_prev = 4),
then a break; the step returns (11, 10, 1). -/
theorem dual_ascent_step_escalate_then_update_witness :
    dual_ascent_step (fun k => if k = 0 then 2 else 1) 100 3 ⟨1, 1, some 4⟩
      = (StepResult.ok 11 10 1, ⟨10, 11, some 4⟩) := by
  have h := (dual_ascent_step_escalate_then_update
    (fun k => if k = 0 then 2 else 1) 100 (⟨1, 1, some 4⟩ : DAState) 1 3
    (by norm_num)
    (by
      intro k hk
      interval_cases k
      exact ⟨by norm_num, by norm_num [quarterExceeds]⟩)).1
    (by norm_num) (by norm_num [quarterExceeds])
  rw [h]
  norm_num

/-- A list of nonnegative rationals sums to zero iff every element is
zero. -/
theorem list_sum_eq_zero_iff (L : List ℚ) (h : ∀ x ∈ L, 0 ≤ x) :
    L.sum = 0 ↔ ∀ x ∈ L, x = 0 := by
  induction L with
  | nil => simp
  | cons a L ih =>
    have ha : 0 ≤ a := h a (List.mem_cons_self a L)
    have hL : ∀ x ∈ L, 0 ≤ x := fun x hx => h x (List.mem_cons_of_mem a hx)
    have hsum : 0 ≤ L.sum := List.sum_nonneg hL
    rw [List.sum_cons]
    constructor
    · intro h0
      have h1 := (add_eq_zero_iff_of_nonneg ha hsum).mp h0
      intro x hx
      rcases List.mem_cons.mp hx with rfl | hx
      · exact h1.1
      · exact (ih hL).mp h1.2 x hx
    · intro hall
      rw [hall a (List.mem_cons_self a L),
        (ih hL).mpr (fun x hx => hall x (List.mem_cons_of_mem a hx)), add_zero]

/-- Summing a function that is constant on a list gives length times the
constant. -/
theorem list_map_const_sum {α : Type} (L : List α) (f : α → ℚ) (c : ℚ)
    (h : ∀ x ∈ L, f x = c) : (L.map f).sum = L.length * c := by
  induction L with
  | nil => simp
  | cons a L ih =>
    rw [List.map_cons, List.sum_cons, h a (List.mem_cons_self a L),
      ih (fun x hx => h x (List.mem_cons_of_mem a hx)), List.length_cons]
    push_cast
    ring

/-- For positive n, the mean-squared-error loss vanishes iff the two
matrices agree entrywise. -/
theorem mseLoss_eq_zero_iff {n : ℕ} (hn : 0 < n) (X Y : Mat n) :
    mseLoss X Y = 0 ↔ ∀ i j, X i j = Y i j := by
  unfold mseLoss
  have h1 : (0 : ℚ) < n := by exact_mod_cast hn
  have hnn : ((n : ℚ) * n) ≠ 0 := by positivity
  rw [div_eq_zero_iff]
  constructor
  · rintro (h | h)
    · intro i j
      have hrow := (Finset.sum_eq_zero_iff_of_nonneg
        (fun i _ => Finset.sum_nonneg
          (fun j _ => sq_nonneg (X i j - Y i j)))).mp h
      have hcell := (Finset.sum_eq_zero_iff_of_nonneg
        (fun j _ => sq_nonneg (X i j - Y i j))).mp (hrow i (Finset.mem_univ i))
      exact sub_eq_zero.mp (sq_eq_zero_iff.mp (hcell j (Finset.mem_univ j)))
    · exact absurd h hnn
  · intro h
    left
    apply Finset.sum_eq_zero
    intro i _
    apply Finset.sum_eq_zero
    intro j _
    rw [h i j, sub_self]
    ring

/-! ## Claim C8 -/

/-- C8: the ensemble consensus loss is zero iff all K models' adjacency
matrices are identical up to the masked diagonal, i.e. agree on every
off-diagonal entry. -/
theorem DStruct_loss_eq_zero_iff {n : ℕ} (As : List (Mat n)) :
    DStruct_loss As = 0 ↔
      ∀ A ∈ As, ∀ B ∈ As, ∀ i j : Fin n, i ≠ j → A i j = B i j := by
  rcases Nat.eq_zero_or_pos n with hn | hn
  · subst hn
    constructor
    · intro _ A _ B _ i
      exact i.elim0
    · intro _
      unfold DStruct_loss
      rw [list_map_const_sum As _ 0 ?_]
      · ring
      · intro A _
        unfold mseLoss
        simp
  · unfold DStruct_loss
    have hnonneg : ∀ x ∈ As.map (fun A_est =>
        mseLoss (fun i j => A_est i j * (if i = j then 0 else 1))
          (fun i j => if i = j then 0 else meanAdj As i j)), 0 ≤ x := by
      intro x hx
      obtain ⟨A, _, rfl⟩ := List.mem_map.mp hx
      unfold mseLoss
      apply div_nonneg
      · apply Finset.sum_nonneg
        intro i _
        apply Finset.sum_nonneg
        intro j _
        exact sq_nonneg _
      · positivity
    rw [list_sum_eq_zero_iff _ hnonneg]
    constructor
    · intro h A hA B hB i j hij
      have hA0 := (mseLoss_eq_zero_iff hn _ _).mp
        (h _ (List.mem_map_of_mem _ hA))
      have hB0 := (mseLoss_eq_zero_iff hn _ _).mp
        (h _ (List.mem_map_of_mem _ hB))
      have h1 := hA0 i j
      have h2 := hB0 i j
      simp only [if_neg hij, mul_one] at h1 h2
      rw [h1, h2]
    · intro h x hx
      obtain ⟨A, hA, rfl⟩ := List.mem_map.mp hx
      rw [mseLoss_eq_zero_iff hn]
      intro i j
      by_cases hij : i = j
      · simp [hij]
      · simp only [if_neg hij, mul_one]
        unfold meanAdj
        rw [list_map_const_sum As _ (A i j) (fun B hB => h B hB A hA i j hij)]
        have hne : ((As.length : ℚ)) ≠ 0 :=
          Nat.cast_ne_zero.mpr
            (by simpa [List.length_eq_zero] using List.ne_nil_of_mem hA)
        rw [mul_div_cancel_left₀ _ hne]

/-- Witness for C8: two identical constant matrices give zero loss. -/
theorem DStruct_loss_eq_zero_iff_witness :
    DStruct_loss ([fun _ _ => 3, fun _ _ => 3] : List (Mat 2)) = 0 := by
  apply (DStruct_loss_eq_zero_iff
    ([fun _ _ => 3, fun _ _ => 3] : List (Mat 2))).mpr
  intro A hA B hB i j _
  rcases List.mem_cons.mp hA with rfl | hA2
  · rcases List.mem_cons.mp hB with rfl | hB2
    · rfl
    · rw [List.mem_singleton.mp hB2]
  · rcases List.mem_cons.mp hB with rfl | hB2
    · rw [List.mem_singleton.mp hA2]
    · rw [List.mem_singleton.mp hA2, List.mem_singleton.mp hB2]
